import Mathlib

/-!
Verification of the round-robin idle-gap scheduler `schedule_round_robin`
from `tt_schedule_or.py`.

The Python function builds, for each candidate gap bound `T`, a CP-SAT
model with boolean variables `x[(i, j, r)]` (match `(i, j)` is played in
round `r`) and `y[(i, r)]` (participant `i` plays in round `r`), subject
to four families of linear constraints, hands the model to the external
CP-SAT solver, and returns the first `T` whose model the solver reports
satisfiable, together with the extracted, sorted schedule.

The external solver is modelled as an oracle `Nat → SolveResult`: for
each candidate bound `T` it yields a status (the CP-SAT statuses) and
the values of the `x` and `y` variables.  The constraint model itself is
embedded as the executable satisfaction predicate `modelSat`, translated
constraint by constraint from the source.
-/

/-- Total number of rounds and of matches: `M = n * (n - 1) // 2`. -/
def M (n : Nat) : Nat := n * (n - 1) / 2

/-- All unordered pairs with `i < j < n`, in the generation order of the
Python list comprehension `[(i, j) for i in range(n) for j in range(i + 1, n)]`. -/
def pairs (n : Nat) : List (Nat × Nat) :=
  (List.range n).flatMap (fun i => (List.range' (i + 1) (n - (i + 1))).map (fun j => (i, j)))

/-- Value assignment to the `x[(i, j, r)]` variables. -/
def XAssign : Type := Nat × Nat × Nat → Bool

/-- Value assignment to the `y[(i, r)]` variables. -/
def YAssign : Type := Nat × Nat → Bool

/-- Constraint family 1: each match is played exactly once,
`sum(x[(i, j, r)] for r in range(M)) == 1` for every pair `(i, j)`. -/
def matchOnce (n : Nat) (x : XAssign) : Bool :=
  (pairs n).all (fun p => (List.range (M n)).countP (fun r => x (p.1, p.2, r)) == 1)

/-- Constraint family 2: exactly one match per round,
`sum(x[(i, j, r)] for (i, j) in pairs) == 1` for every round `r`. -/
def roundExclusive (n : Nat) (x : XAssign) : Bool :=
  (List.range (M n)).all (fun r => (pairs n).countP (fun p => x (p.1, p.2, r)) == 1)

/-- Constraint family 3: linkage of `x` and `y`,
`sum(x[(a, b, r)] for (a, b) in pairs if a == i or b == i) == y[(i, r)]`
for every participant `i` and round `r`. -/
def linkage (n : Nat) (x : XAssign) (y : YAssign) : Bool :=
  (List.range n).all (fun i => (List.range (M n)).all (fun r =>
    (pairs n).countP (fun p => (p.1 == i || p.2 == i) && x (p.1, p.2, r))
      == (if y (i, r) then 1 else 0)))

/-- Constraint family 4: idle-gap windows,
`sum(y[(i, start + s)] for s in range(T + 1)) >= 1` for every participant `i`
and every `start in range(M - T)`. -/
def idleGap (n T : Nat) (y : YAssign) : Bool :=
  (List.range n).all (fun i => (List.range (M n - T)).all (fun start =>
    decide (1 ≤ (List.range (T + 1)).countP (fun s => y (i, start + s)))))

/-- The whole model for parameters `(n, T)`: an assignment satisfies it iff it
satisfies the four constraint families added by the source. -/
def modelSat (n T : Nat) (x : XAssign) (y : YAssign) : Bool :=
  matchOnce n x && roundExclusive n x && linkage n x y && idleGap n T y

/-- The model for `(n, T)` has a satisfying assignment. -/
def Feasible (n T : Nat) : Prop := ∃ x y, modelSat n T x y = true

/-- The CP-SAT solver statuses relevant to the script. -/
inductive CpStatus where
  | optimal
  | feasible
  | infeasible
  | unknown
deriving DecidableEq

/-- Outcome of one solver invocation: a status together with the values the
solver would report for the `x` and `y` variables. -/
structure SolveResult where
  status : CpStatus
  xval : XAssign
  yval : YAssign

/-- The test `status in (cp_model.OPTIMAL, cp_model.FEASIBLE)`. -/
def satStatus : CpStatus → Bool
  | .optimal => true
  | .feasible => true
  | .infeasible => false
  | .unknown => false

/-- Lexicographic comparison of schedule triples, the order used by Python's
`sorted` on 3-tuples of integers. -/
def tripLe (a b : Nat × Nat × Nat) : Bool :=
  decide (a.1 < b.1) ||
    (a.1 == b.1 && (decide (a.2.1 < b.2.1) || (a.2.1 == b.2.1 && decide (a.2.2 ≤ b.2.2))))

/-- Insert a triple into a `tripLe`-sorted list, in front of the first element
it is `tripLe`-below; a structural, stable sorting step matching Python's
stable ascending `sorted`. -/
def insertTriple (a : Nat × Nat × Nat) : List (Nat × Nat × Nat) → List (Nat × Nat × Nat)
  | [] => [a]
  | b :: l => if tripLe a b then a :: b :: l else b :: insertTriple a l

/-- Stable insertion sort by `tripLe`; on lists of pairwise distinct triples it
agrees with every sort, in particular with Python's `sorted`. -/
def sortTriples : List (Nat × Nat × Nat) → List (Nat × Nat × Nat)
  | [] => []
  | a :: l => insertTriple a (sortTriples l)

/-- The `schedule` list before sorting: iterate over the `x` dictionary in
insertion order (pairs-major, then rounds) and keep the true variables as
`(r + 1, i + 1, j + 1)` (1-based indexing). -/
def extractRaw (n : Nat) (xv : XAssign) : List (Nat × Nat × Nat) :=
  (pairs n).flatMap (fun p => (List.range (M n)).filterMap (fun r =>
    if xv (p.1, p.2, r) then some (r + 1, p.1 + 1, p.2 + 1) else none))

/-- Schedule extraction from a satisfying assignment: the raw extracted list,
sorted ascending as by Python's `sorted`. -/
def extractSchedule (n : Nat) (xv : XAssign) : List (Nat × Nat × Nat) :=
  sortTriples (extractRaw n xv)

/-- The `for T in range(M)` loop: at candidate bound `T` with `fuel` candidates
left, solve the model for `T`; on a satisfiable status return `(T, schedule)`,
otherwise move on to `T + 1`. -/
def searchLoop (n : Nat) (solve : Nat → SolveResult) : Nat → Nat → Option (Nat × List (Nat × Nat × Nat))
  | _, 0 => none
  | T, fuel + 1 =>
    if satStatus (solve T).status then some (T, extractSchedule n (solve T).xval)
    else searchLoop n solve (T + 1) fuel

/-- The embedded `schedule_round_robin`: try each candidate `T` in
`range(M)` in increasing order; return the first `(T, sorted schedule)` whose
model the solver reports satisfiable, and `none` when the loop falls through. -/
def schedule_round_robin (n : Nat) (solve : Nat → SolveResult) : Option (Nat × List (Nat × Nat × Nat)) :=
  searchLoop n solve 0 (M n)

/-! Concrete assignments and solver oracles, used below in witnesses and
counterexamples. -/

/-- For `n = 2`: the single match `(0, 1)` is played in round `0`. -/
def xw : XAssign := fun t => t == (0, 1, 0)

/-- For `n = 2`: both participants play in every round. -/
def yw : YAssign := fun _ => true

/-- A solver oracle that reports FEASIBLE with assignment `xw`, `yw` for every
candidate bound. -/
def oracle0 : Nat → SolveResult := fun _ => ⟨.feasible, xw, yw⟩

/-- For `n = 3`: rounds `0`, `1`, `2` host matches `(0,1)`, `(0,2)`, `(1,2)`. -/
def xw3 : XAssign := fun t => t == (0, 1, 0) || t == (0, 2, 1) || t == (1, 2, 2)

/-- The participation pattern of `xw3`. -/
def yw3 : YAssign := fun t =>
  t == (0, 0) || t == (1, 0) || t == (0, 1) || t == (2, 1) || t == (1, 2) || t == (2, 2)

/-- An oracle whose status is always UNKNOWN. -/
def unknownOracle : Nat → SolveResult := fun _ => ⟨.unknown, fun _ => false, fun _ => false⟩

/-- An oracle whose status is always INFEASIBLE. -/
def infeasibleOracle : Nat → SolveResult := fun _ => ⟨.infeasible, fun _ => false, fun _ => false⟩

/-- An oracle answering UNKNOWN at `T = 0` and FEASIBLE afterwards. -/
def unknownThenSatOracle : Nat → SolveResult := fun T =>
  if T == 0 then ⟨.unknown, fun _ => false, fun _ => false⟩
  else ⟨.feasible, fun _ => false, fun _ => false⟩

/-! Helper lemmas about the search loop. -/

theorem searchLoop_eq_some {n : Nat} {solve : Nat → SolveResult} :
    ∀ {fuel T0 T : Nat} {sched : List (Nat × Nat × Nat)},
      searchLoop n solve T0 fuel = some (T, sched) →
      T0 ≤ T ∧ T < T0 + fuel ∧ satStatus (solve T).status = true ∧
        sched = extractSchedule n (solve T).xval ∧
        ∀ T1, T0 ≤ T1 → T1 < T → satStatus (solve T1).status = false := by
  intro fuel
  induction fuel with
  | zero => intro T0 T sched h; simp [searchLoop] at h
  | succ fuel ih =>
    intro T0 T sched h
    simp only [searchLoop] at h
    cases hs : satStatus (solve T0).status with
    | true =>
      rw [hs] at h
      simp only [if_pos] at h
      obtain ⟨rfl, rfl⟩ := Prod.mk.injEq _ _ _ _ ▸ Option.some.injEq _ _ ▸ h
      exact ⟨Nat.le_refl _, by omega, hs, rfl, fun T1 h1 h2 => absurd h1 (by omega)⟩
    | false =>
      rw [hs] at h
      simp only [if_neg Bool.false_ne_true] at h
      obtain ⟨h1, h2, h3, h4, h5⟩ := ih h
      refine ⟨by omega, by omega, h3, h4, fun T1 hl hu => ?_⟩
      rcases Nat.eq_or_lt_of_le hl with rfl | hlt
      · exact hs
      · exact h5 T1 hlt hu

theorem srr_eq_some {n : Nat} {solve : Nat → SolveResult} {T : Nat}
    {sched : List (Nat × Nat × Nat)}
    (h : schedule_round_robin n solve = some (T, sched)) :
    T < M n ∧ satStatus (solve T).status = true ∧
      sched = extractSchedule n (solve T).xval ∧
      ∀ T1 < T, satStatus (solve T1).status = false := by
  obtain ⟨_, h2, h3, h4, h5⟩ := searchLoop_eq_some h
  exact ⟨by omega, h3, h4, fun T1 h1 => h5 T1 (Nat.zero_le _) h1⟩

/-! Helper lemmas about `pairs`. -/

theorem mem_pairs {n : Nat} {p : Nat × Nat} :
    p ∈ pairs n ↔ p.1 < p.2 ∧ p.2 < n := by
  obtain ⟨i, j⟩ := p
  simp only [pairs, List.mem_flatMap, List.mem_map, List.mem_range, List.mem_range'_1]
  constructor
  · rintro ⟨a, ha, j', hj', h⟩
    obtain ⟨rfl, rfl⟩ := Prod.mk.injEq _ _ _ _ ▸ h
    exact ⟨by omega, by omega⟩
  · rintro ⟨h1, h2⟩
    exact ⟨i, by omega, j, ⟨by omega, by omega⟩, rfl⟩

theorem pairs_nodup (n : Nat) : (pairs n).Nodup := by
  rw [pairs, List.nodup_flatMap]
  refine ⟨fun i _ => ?_, ?_⟩
  · exact (List.nodup_range' _ _).map (fun a b hab => by
      simpa using congrArg Prod.snd hab)
  · have h := List.nodup_range n
    rw [List.Nodup] at h
    refine h.imp (fun {a b} hab => ?_)
    intro t ht1 ht2
    simp only [List.mem_map] at ht1 ht2
    obtain ⟨j1, _, rfl⟩ := ht1
    obtain ⟨j2, _, h2⟩ := ht2
    exact hab (congrArg Prod.fst h2).symm

/-! Generic counting helper lemmas. -/

theorem filterMap_if_eq_map_filter {α β : Type} (c : α → Bool) (h : α → β) :
    ∀ l : List α,
      (l.filterMap fun a => if c a then some (h a) else none) = (l.filter c).map h := by
  intro l
  induction l with
  | nil => rfl
  | cons a l ih =>
    cases hc : c a <;> simp [List.filterMap_cons, List.filter_cons, hc, ih]

theorem sum_map_eq_countP {α : Type} {l : List α} {g : α → Nat} {c : α → Bool}
    (h : ∀ a ∈ l, g a = if c a then 1 else 0) : (l.map g).sum = l.countP c := by
  induction l with
  | nil => rfl
  | cons a l ih =>
    simp only [List.map_cons, List.sum_cons, List.countP_cons]
    rw [h a (List.mem_cons_self a l), ih (fun b hb => h b (List.mem_cons_of_mem a hb))]
    exact Nat.add_comm _ _

theorem countP_const {α : Type} (b : Bool) (l : List α) :
    l.countP (fun _ => b) = if b then l.length else 0 := by
  induction l with
  | nil => cases b <;> simp
  | cons a l ih => cases b <;> simp [List.countP_cons, ih]

theorem countP_beq_and_of_nodup {l : List Nat} (hl : l.Nodup) (r : Nat) (c : Nat → Bool) :
    l.countP (fun a => (a == r) && c a) = if r ∈ l ∧ c r = true then 1 else 0 := by
  induction l with
  | nil => simp
  | cons a l ih =>
    rw [List.nodup_cons] at hl
    rw [List.countP_cons, ih hl.2]
    by_cases ha : a = r
    · subst ha
      have hnotl : ¬ (a ∈ l ∧ c a = true) := fun hc => hl.1 hc.1
      cases hc : c a <;> simp [hnotl, hc, hl.1]
    · have hne : (a == r) = false := by simpa using ha
      have hra : ¬ r = a := fun h => ha h.symm
      simp [hne, hra]

theorem countP_beq_and_range (m r : Nat) (c : Nat → Bool) :
    (List.range m).countP (fun a => (a == r) && c a) = if r < m ∧ c r = true then 1 else 0 := by
  rw [countP_beq_and_of_nodup (List.nodup_range m)]
  simp [List.mem_range]

/-! The Gauss sum and the length of `pairs`. -/

theorem range_sum_two (n : Nat) : (List.range n).sum * 2 = n * (n - 1) := by
  induction n with
  | zero => rfl
  | succ m ih =>
    rw [List.range_succ, List.sum_append, List.sum_cons, List.sum_nil, Nat.add_mul, ih]
    cases m with
    | zero => rfl
    | succ k =>
      simp only [Nat.succ_sub_one, Nat.add_zero]
      ring

theorem map_sub_range_sum (n : Nat) :
    ((List.range n).map (fun i => n - 1 - i)).sum = (List.range n).sum := by
  have h4 := List.reverse_range' 0 n
  rw [← List.range_eq_range'] at h4
  have h3 : (List.range n).map (fun i => n - 1 - i) = (List.range n).reverse := by
    rw [h4]
    apply List.map_congr_left
    intro i _
    omega
  rw [h3, List.sum_reverse]

theorem pairs_length (n : Nat) : (pairs n).length = M n := by
  have h1 : (pairs n).length = ((List.range n).map (fun i => n - 1 - i)).sum := by
    rw [pairs, List.length_flatMap]
    apply congrArg List.sum
    apply List.map_congr_left
    intro i _
    simp only [Function.comp_apply, List.length_map, List.length_range']
    omega
  have h2 := range_sum_two n
  rw [h1, map_sub_range_sum]
  unfold M
  generalize n * (n - 1) = K at h2 ⊢
  omega

/-! Unfolding lemmas for the four constraint families. -/

theorem matchOnce_count {n : Nat} {xv : XAssign} (h : matchOnce n xv = true)
    {p : Nat × Nat} (hp : p ∈ pairs n) :
    (List.range (M n)).countP (fun r => xv (p.1, p.2, r)) = 1 := by
  rw [matchOnce, List.all_eq_true] at h
  simpa using h p hp

theorem roundExclusive_count {n : Nat} {xv : XAssign} (h : roundExclusive n xv = true)
    {r : Nat} (hr : r < M n) :
    (pairs n).countP (fun p => xv (p.1, p.2, r)) = 1 := by
  rw [roundExclusive, List.all_eq_true] at h
  simpa using h r (List.mem_range.mpr hr)

theorem linkage_count {n : Nat} {xv : XAssign} {yv : YAssign} (h : linkage n xv yv = true)
    {i r : Nat} (hi : i < n) (hr : r < M n) :
    (pairs n).countP (fun p => (p.1 == i || p.2 == i) && xv (p.1, p.2, r))
      = (if yv (i, r) then 1 else 0) := by
  rw [linkage, List.all_eq_true] at h
  have h1 := h i (List.mem_range.mpr hi)
  rw [List.all_eq_true] at h1
  simpa using h1 r (List.mem_range.mpr hr)

theorem idleGap_count {n T : Nat} {yv : YAssign} (h : idleGap n T yv = true)
    {i start : Nat} (hi : i < n) (hstart : start < M n - T) :
    1 ≤ (List.range (T + 1)).countP (fun s => yv (i, start + s)) := by
  rw [idleGap, List.all_eq_true] at h
  have h1 := h i (List.mem_range.mpr hi)
  rw [List.all_eq_true] at h1
  simpa using h1 start (List.mem_range.mpr hstart)

theorem modelSat_parts {n T : Nat} {xv : XAssign} {yv : YAssign}
    (h : modelSat n T xv yv = true) :
    matchOnce n xv = true ∧ roundExclusive n xv = true ∧
      linkage n xv yv = true ∧ idleGap n T yv = true := by
  rw [modelSat, Bool.and_eq_true, Bool.and_eq_true, Bool.and_eq_true] at h
  exact ⟨h.1.1.1, h.1.1.2, h.1.2, h.2⟩

/-! Structure of the extracted raw schedule list. -/

theorem extractRaw_length {n : Nat} {xv : XAssign} (h : matchOnce n xv = true) :
    (extractRaw n xv).length = M n := by
  rw [extractRaw, List.length_flatMap]
  have h1 : ∀ p ∈ pairs n,
      (List.length ∘ fun p : Nat × Nat => (List.range (M n)).filterMap (fun r =>
        if xv (p.1, p.2, r) then some (r + 1, p.1 + 1, p.2 + 1) else none)) p
      = if (fun _ : Nat × Nat => true) p then 1 else 0 := by
    intro p hp
    simp only [Function.comp_apply, if_true]
    rw [filterMap_if_eq_map_filter, List.length_map, ← List.countP_eq_length_filter]
    exact matchOnce_count h hp
  rw [sum_map_eq_countP h1, List.countP_true, pairs_length]

theorem countP_eq_one_of_nodup {α : Type} [DecidableEq α] {l : List α} (hl : l.Nodup)
    {a : α} (ha : a ∈ l) : l.countP (fun x => decide (x = a)) = 1 := by
  induction l with
  | nil => cases ha
  | cons b l ih =>
    rw [List.nodup_cons] at hl
    rw [List.countP_cons]
    rcases List.mem_cons.mp ha with rfl | hal
    · have h0 : l.countP (fun x => decide (x = a)) = 0 := by
        rw [List.countP_eq_zero]
        intro x hx
        simp only [decide_eq_true_eq]
        intro hxa
        exact hl.1 (hxa ▸ hx)
      simp [h0]
    · have hb : ¬ b = a := fun h => hl.1 (h ▸ hal)
      simp [ih hl.2 hal, hb]

theorem extractRaw_countP_pair {n : Nat} {xv : XAssign} (h : matchOnce n xv = true)
    {p : Nat × Nat} (hp : p ∈ pairs n) :
    (extractRaw n xv).countP (fun t => t.2.1 == p.1 + 1 && t.2.2 == p.2 + 1) = 1 := by
  obtain ⟨p1, p2⟩ := p
  rw [extractRaw, List.countP_flatMap]
  have h1 : ∀ q ∈ pairs n,
      ((List.countP (fun t : Nat × Nat × Nat => t.2.1 == p1 + 1 && t.2.2 == p2 + 1)) ∘
        fun q : Nat × Nat => (List.range (M n)).filterMap (fun r =>
          if xv (q.1, q.2, r) then some (r + 1, q.1 + 1, q.2 + 1) else none)) q
      = if decide (q = (p1, p2)) then 1 else 0 := by
    intro q hq
    obtain ⟨q1, q2⟩ := q
    simp only [Function.comp_apply]
    rw [filterMap_if_eq_map_filter, List.countP_map]
    have hfe : ((fun t : Nat × Nat × Nat => t.2.1 == p1 + 1 && t.2.2 == p2 + 1) ∘
        fun r : Nat => (r + 1, q1 + 1, q2 + 1))
        = fun _ : Nat => (q1 == p1 && q2 == p2) := by
      funext r
      simp only [Function.comp_apply]
      rw [Bool.eq_iff_iff]
      simp only [Bool.and_eq_true, beq_iff_eq]
      omega
    rw [hfe, countP_const]
    by_cases hqp : (q1, q2) = (p1, p2)
    · obtain ⟨rfl, rfl⟩ := Prod.mk.injEq _ _ _ _ ▸ hqp
      have hone := matchOnce_count h hq
      rw [List.countP_eq_length_filter] at hone
      simp [hone]
    · have hq1 : ¬(q1 = p1 ∧ q2 = p2) := by
        intro hc
        exact hqp (by rw [hc.1, hc.2])
      have hb : (q1 == p1 && q2 == p2) = false := by
        rw [← Bool.not_eq_true, Bool.and_eq_true, beq_iff_eq, beq_iff_eq]
        exact hq1
      rw [hb]
      simp [hqp]
  rw [sum_map_eq_countP h1]
  exact countP_eq_one_of_nodup (pairs_nodup n) hp

theorem extractRaw_countP_round {n : Nat} {xv : XAssign} (h : roundExclusive n xv = true)
    {r : Nat} (hr : r < M n) :
    (extractRaw n xv).countP (fun t => t.1 == r + 1) = 1 := by
  rw [extractRaw, List.countP_flatMap]
  have h1 : ∀ q ∈ pairs n,
      ((List.countP (fun t : Nat × Nat × Nat => t.1 == r + 1)) ∘
        fun q : Nat × Nat => (List.range (M n)).filterMap (fun r' =>
          if xv (q.1, q.2, r') then some (r' + 1, q.1 + 1, q.2 + 1) else none)) q
      = if (fun q : Nat × Nat => xv (q.1, q.2, r)) q then 1 else 0 := by
    intro q _
    simp only [Function.comp_apply]
    rw [filterMap_if_eq_map_filter, List.countP_map]
    have hfe : ((fun t : Nat × Nat × Nat => t.1 == r + 1) ∘
        fun r' : Nat => (r' + 1, q.1 + 1, q.2 + 1))
        = fun r' : Nat => (r' == r) := by
      funext r'
      simp only [Function.comp_apply]
      rw [Bool.eq_iff_iff]
      simp only [beq_iff_eq]
      omega
    rw [hfe, List.countP_filter]
    dsimp only
    rw [countP_beq_and_range]
    by_cases hc : xv (q.1, q.2, r) = true
    · simp [hr, hc]
    · simp [hr, hc]
  rw [sum_map_eq_countP h1]
  exact roundExclusive_count h hr

theorem extractRaw_nodup (n : Nat) (xv : XAssign) : (extractRaw n xv).Nodup := by
  rw [extractRaw, List.nodup_flatMap]
  constructor
  · intro p _
    rw [filterMap_if_eq_map_filter]
    apply List.Nodup.map
    · intro a b hab
      simpa using congrArg (fun t : Nat × Nat × Nat => t.1) hab
    · exact (List.nodup_range _).filter _
  · have hp : List.Pairwise (fun a b : Nat × Nat => a ≠ b) (pairs n) := pairs_nodup n
    refine hp.imp (fun {p q} hpq => ?_)
    intro t ht1 ht2
    simp only [filterMap_if_eq_map_filter, List.mem_map] at ht1 ht2
    obtain ⟨r1, _, rfl⟩ := ht1
    obtain ⟨r2, _, heq⟩ := ht2
    apply hpq
    have h1 := congrArg (fun t : Nat × Nat × Nat => t.2.1) heq
    have h2 := congrArg (fun t : Nat × Nat × Nat => t.2.2) heq
    simp only at h1 h2
    exact Prod.ext (by omega) (by omega)

theorem mem_extractRaw {n : Nat} {xv : XAssign} {t : Nat × Nat × Nat}
    (ht : t ∈ extractRaw n xv) :
    ∃ p ∈ pairs n, ∃ r, r < M n ∧ xv (p.1, p.2, r) = true ∧
      t = (r + 1, p.1 + 1, p.2 + 1) := by
  rw [extractRaw] at ht
  simp only [List.mem_flatMap] at ht
  obtain ⟨p, hp, ht⟩ := ht
  rw [filterMap_if_eq_map_filter] at ht
  simp only [List.mem_map, List.mem_filter, List.mem_range] at ht
  obtain ⟨r, ⟨hr, hxv⟩, rfl⟩ := ht
  exact ⟨p, hp, r, hr, hxv, rfl⟩

/-! Properties of the insertion sort used for the final schedule. -/

theorem tripLe_iff {a b : Nat × Nat × Nat} :
    tripLe a b = true ↔
      a.1 < b.1 ∨ (a.1 = b.1 ∧ (a.2.1 < b.2.1 ∨ (a.2.1 = b.2.1 ∧ a.2.2 ≤ b.2.2))) := by
  simp [tripLe, Bool.or_eq_true, Bool.and_eq_true, decide_eq_true_eq, beq_iff_eq]

theorem tripLe_total (a b : Nat × Nat × Nat) : tripLe a b = true ∨ tripLe b a = true := by
  rw [tripLe_iff, tripLe_iff]
  omega

theorem tripLe_trans {a b c : Nat × Nat × Nat}
    (h1 : tripLe a b = true) (h2 : tripLe b c = true) : tripLe a c = true := by
  rw [tripLe_iff] at h1 h2 ⊢
  omega

theorem insertTriple_perm (a : Nat × Nat × Nat) :
    ∀ l, (insertTriple a l).Perm (a :: l)
  | [] => List.Perm.refl _
  | b :: l => by
    simp only [insertTriple]
    split
    · exact List.Perm.refl _
    · exact ((insertTriple_perm a l).cons b).trans (List.Perm.swap a b l)

theorem sortTriples_perm : ∀ l, (sortTriples l).Perm l
  | [] => List.Perm.refl _
  | a :: l => (insertTriple_perm a (sortTriples l)).trans ((sortTriples_perm l).cons a)

theorem insertTriple_pairwise (a : Nat × Nat × Nat) :
    ∀ l, List.Pairwise (fun u v => tripLe u v = true) l →
      List.Pairwise (fun u v => tripLe u v = true) (insertTriple a l)
  | [], _ => by simp [insertTriple]
  | b :: l, hp => by
    simp only [insertTriple]
    split
    · rename_i hab
      refine List.Pairwise.cons ?_ hp
      intro t ht
      rcases List.mem_cons.mp ht with rfl | htl
      · exact hab
      · exact tripLe_trans hab ((List.pairwise_cons.mp hp).1 t htl)
    · rename_i hab
      have hba : tripLe b a = true := by
        rcases tripLe_total a b with h | h
        · exact absurd h hab
        · exact h
      obtain ⟨hbl, hl⟩ := List.pairwise_cons.mp hp
      refine List.pairwise_cons.mpr ⟨?_, insertTriple_pairwise a l hl⟩
      intro t ht
      rcases List.mem_cons.mp ((insertTriple_perm a l).mem_iff.mp ht) with rfl | htl
      · exact hba
      · exact hbl t htl

theorem sortTriples_pairwise : ∀ l, List.Pairwise (fun u v => tripLe u v = true) (sortTriples l)
  | [] => List.Pairwise.nil
  | a :: l => insertTriple_pairwise a (sortTriples l) (sortTriples_pairwise l)

theorem extractSchedule_perm (n : Nat) (xv : XAssign) :
    (extractSchedule n xv).Perm (extractRaw n xv) :=
  sortTriples_perm (extractRaw n xv)

theorem two_le_countP_of_mem {α : Type} {l : List α} {a b : α} {p : α → Bool}
    (hab : a ≠ b) (ha : a ∈ l) (hb : b ∈ l) (hpa : p a = true) (hpb : p b = true) :
    2 ≤ l.countP p := by
  induction l with
  | nil => cases ha
  | cons c l ih =>
    rw [List.countP_cons]
    rcases List.mem_cons.mp ha with rfl | hal
    · have hbl : b ∈ l := by
        rcases List.mem_cons.mp hb with rfl | hbl
        · exact absurd rfl hab
        · exact hbl
      have h1 : 0 < l.countP p := List.countP_pos_iff.mpr ⟨b, hbl, hpb⟩
      simp only [hpa, if_pos]
      omega
    · rcases List.mem_cons.mp hb with rfl | hbl
      · have h1 : 0 < l.countP p := List.countP_pos_iff.mpr ⟨a, hal, hpa⟩
        simp only [hpb, if_pos]
        omega
      · have h1 := ih hal hbl
        omega

/-! The claims. -/

/-- C1: for every n ≥ 2, `schedule_round_robin` probes candidate bounds T in
increasing order inside [0, M), returning at the first T whose model the
solver reports satisfiable (every smaller T having received a non-satisfiable
status); for a solver that is sound at the returned T and complete below it,
the returned T is therefore the minimal feasible idle-gap bound. -/
theorem returned_bound_is_minimal (n : Nat) (solve : Nat → SolveResult) (T : Nat)
    (sched : List (Nat × Nat × Nat)) ( _hn : 2 ≤ n)
    (hret : schedule_round_robin n solve = some (T, sched))
    (hsound : satStatus (solve T).status = true →
      modelSat n T (solve T).xval (solve T).yval = true)
    (hcomp : ∀ T1, T1 < T → Feasible n T1 → satStatus (solve T1).status = true) :
    T < M n ∧ satStatus (solve T).status = true ∧
      (∀ T1, T1 < T → satStatus (solve T1).status = false) ∧
      Feasible n T ∧ (∀ T1, T1 < T → ¬ Feasible n T1) := by
  obtain ⟨h1, h2, _, h4⟩ := srr_eq_some hret
  refine ⟨h1, h2, h4, ⟨_, _, hsound h2⟩, fun T1 hT1 hf => ?_⟩
  have hc := hcomp T1 hT1 hf
  rw [h4 T1 hT1] at hc
  exact Bool.false_ne_true hc

/-- Witness for C1: n = 2 with a sound constant-FEASIBLE oracle. -/
theorem returned_bound_is_minimal_witness :
    0 < M 2 ∧ satStatus (oracle0 0).status = true ∧
      (∀ T1, T1 < 0 → satStatus (oracle0 T1).status = false) ∧
      Feasible 2 0 ∧ (∀ T1, T1 < 0 → ¬ Feasible 2 T1) :=
  returned_bound_is_minimal 2 oracle0 0 [(1, 1, 2)] (by decide) (by decide)
    (fun _ => by decide) (fun T1 hT1 _ => absurd hT1 (Nat.not_lt_zero T1))

/-- C2: a satisfying assignment of the model for (n, T) has, for every
participant p < n and every window of T+1 consecutive rounds starting at any
start with start + T < M, at least one played round in the window: the window
sum is ≥ 1, and some offset s ≤ T has y (p, start + s) true, so no participant
is idle for T+1 consecutive rounds anywhere. -/
theorem window_constraint_holds (n T : Nat) (x : XAssign) (y : YAssign)
    (h : modelSat n T x y = true) :
    ∀ p, p < n → ∀ start, start + T < M n →
      1 ≤ (List.range (T + 1)).countP (fun s => y (p, start + s)) ∧
      ∃ s, s ≤ T ∧ y (p, start + s) = true := by
  intro p hp start hstart
  have hgap := (modelSat_parts h).2.2.2
  have hcount := idleGap_count hgap hp (show start < M n - T by omega)
  refine ⟨hcount, ?_⟩
  obtain ⟨s, hsmem, hys⟩ := List.countP_pos_iff.mp hcount
  rw [List.mem_range] at hsmem
  exact ⟨s, by omega, hys⟩

/-- Witness for C2: n = 3, T = 1 with the concrete assignment `xw3`, `yw3`. -/
theorem window_constraint_holds_witness :
    modelSat 3 1 xw3 yw3 = true ∧
      (∀ p, p < 3 → ∀ start, start + 1 < M 3 →
        1 ≤ (List.range (1 + 1)).countP (fun s => yw3 (p, start + s)) ∧
        ∃ s, s ≤ 1 ∧ yw3 (p, start + s) = true) :=
  ⟨by decide, window_constraint_holds 3 1 xw3 yw3 (by decide)⟩

/-- C8: feasibility is monotone in the gap bound: an assignment satisfying the
model for bound T satisfies it for every bound T2 ≥ T. -/
theorem feasibility_monotone (n T T2 : Nat) (x : XAssign) (y : YAssign)
    (h : modelSat n T x y = true) (hle : T ≤ T2) :
    modelSat n T2 x y = true := by
  obtain ⟨hm, hre, hlink, hgap⟩ := modelSat_parts h
  simp only [modelSat, hm, hre, hlink, Bool.true_and]
  rw [idleGap, List.all_eq_true]
  intro i hi
  rw [List.all_eq_true]
  intro start hstart
  rw [List.mem_range] at hi hstart
  simp only [decide_eq_true_eq]
  have h0 := idleGap_count hgap hi (show start < M n - T by omega)
  obtain ⟨s, hsmem, hys⟩ := List.countP_pos_iff.mp h0
  rw [List.mem_range] at hsmem
  exact List.countP_pos_iff.mpr ⟨s, List.mem_range.mpr (by omega), hys⟩

/-- Witness for C8: the n = 3 assignment satisfying the bound-1 model also
satisfies the bound-2 model. -/
theorem feasibility_monotone_witness :
    modelSat 3 1 xw3 yw3 = true ∧ 1 ≤ 2 ∧ modelSat 3 2 xw3 yw3 = true :=
  ⟨by decide, by decide, feasibility_monotone 3 1 2 xw3 yw3 (by decide) (by decide)⟩

/-- C10: for n < 2 the round count M is 0, so the loop over candidate bounds
never executes: the function returns `none` for every solver oracle, without
raising and without ever building or solving a model. -/
theorem small_n_returns_none (n : Nat) (solve : Nat → SolveResult) (h : n < 2) :
    M n = 0 ∧ schedule_round_robin n solve = none := by
  have hM : M n = 0 := by
    rcases n with _ | n
    · rfl
    · rcases n with _ | n
      · rfl
      · omega
  refine ⟨hM, ?_⟩
  rw [schedule_round_robin, hM]
  rfl

/-- Witness for C10: n = 1 with the always-UNKNOWN oracle. -/
theorem small_n_returns_none_witness :
    1 < 2 ∧ (M 1 = 0 ∧ schedule_round_robin 1 unknownOracle = none) :=
  ⟨by decide, small_n_returns_none 1 unknownOracle (by decide)⟩

/-- C3: with a solver whose returned assignment satisfies the model, the
returned schedule is a bijection between the M matches and the M rounds: it
has length M, each match (as a 1-based pair) appears in exactly one entry,
each of the M rounds hosts exactly one entry, every entry's pair comes from
the match list, and the list has no repeats. -/
theorem schedule_is_bijection (n : Nat) (solve : Nat → SolveResult) (T : Nat)
    (sched : List (Nat × Nat × Nat)) ( _hn : 2 ≤ n)
    (hret : schedule_round_robin n solve = some (T, sched))
    (hsound : modelSat n T (solve T).xval (solve T).yval = true) :
    sched.length = M n ∧
      (∀ p ∈ pairs n,
        sched.countP (fun t => t.2.1 == p.1 + 1 && t.2.2 == p.2 + 1) = 1) ∧
      (∀ r, r < M n → sched.countP (fun t => t.1 == r + 1) = 1) ∧
      (∀ t ∈ sched, ∃ p ∈ pairs n, t.2 = (p.1 + 1, p.2 + 1)) ∧
      sched.Nodup := by
  obtain ⟨h1, h2, h3, h4⟩ := srr_eq_some hret
  obtain ⟨hm, hre, hlink, hgap⟩ := modelSat_parts hsound
  subst h3
  have hperm := extractSchedule_perm n (solve T).xval
  refine ⟨?_, ?_, ?_, ?_, ?_⟩
  · rw [hperm.length_eq, extractRaw_length hm]
  · intro p hp
    rw [hperm.countP_eq]
    exact extractRaw_countP_pair hm hp
  · intro r hr
    rw [hperm.countP_eq]
    exact extractRaw_countP_round hre hr
  · intro t ht
    obtain ⟨p, hp, r, hr, hx, rfl⟩ := mem_extractRaw (hperm.mem_iff.mp ht)
    exact ⟨p, hp, rfl⟩
  · exact hperm.nodup_iff.mpr (extractRaw_nodup n _)

/-- Witness for C3: n = 2 with the sound constant-FEASIBLE oracle. -/
theorem schedule_is_bijection_witness :
    schedule_round_robin 2 oracle0 = some (0, [(1, 1, 2)]) ∧
      ([((1 : Nat), (1 : Nat), (2 : Nat))].length = M 2 ∧
        (∀ p ∈ pairs 2, [((1 : Nat), (1 : Nat), (2 : Nat))].countP
          (fun t => t.2.1 == p.1 + 1 && t.2.2 == p.2 + 1) = 1) ∧
        (∀ r, r < M 2 →
          [((1 : Nat), (1 : Nat), (2 : Nat))].countP (fun t => t.1 == r + 1) = 1) ∧
        (∀ t ∈ [((1 : Nat), (1 : Nat), (2 : Nat))],
          ∃ p ∈ pairs 2, t.2 = (p.1 + 1, p.2 + 1)) ∧
        [((1 : Nat), (1 : Nat), (2 : Nat))].Nodup) :=
  ⟨by decide,
    schedule_is_bijection 2 oracle0 0 [(1, 1, 2)] (by decide) (by decide) (by decide)⟩

/-- C4 (code defect): an UNKNOWN solver status is handled exactly like UNSAT.
With an oracle answering UNKNOWN at T = 0 and FEASIBLE at T = 1 for n = 3, the
search silently advances past the UNKNOWN and returns T = 1; and when every
status is UNKNOWN the function returns `none` — the identical outcome to every
status being INFEASIBLE, so a timeout is indistinguishable from infeasibility. -/
theorem unknown_treated_as_unsat :
    schedule_round_robin 3 unknownThenSatOracle = some (1, []) ∧
    schedule_round_robin 2 unknownOracle = none ∧
    schedule_round_robin 2 infeasibleOracle = none := by
  refine ⟨by decide, by decide, by decide⟩

/-- C5 (code defect): n = 0 and n = 1 are not rejected as invalid input and no
error is raised: the function falls through the (empty) candidate loop — the
line commented "Should never get here" — and returns `none`, the same value
as a failed search, whatever the solver. -/
theorem small_n_not_rejected :
    schedule_round_robin 0 unknownOracle = none ∧
    schedule_round_robin 1 unknownOracle = none ∧
    schedule_round_robin 0 oracle0 = none ∧
    schedule_round_robin 1 oracle0 = none := by
  refine ⟨by decide, by decide, by decide, by decide⟩

/-- C6 counterexample: at n = 2 with a sound solver the function returns
T = 0 with schedule [(1, 1, 2)] — not [(0, 0, 1)] as 0-based indexing would
give — and the participant identifier 2 lies outside [0, 2). -/
theorem one_based_indexing_counterexample :
    schedule_round_robin 2 oracle0 = some (0, [(1, 1, 2)]) ∧
    modelSat 2 0 (oracle0 0).xval (oracle0 0).yval = true ∧
    some ((0 : Nat), [((1 : Nat), (1 : Nat), (2 : Nat))])
      ≠ some ((0 : Nat), [((0 : Nat), (0 : Nat), (1 : Nat))]) ∧
    ¬ ((2 : Nat) < 2) := by
  refine ⟨by decide, by decide, by decide, by decide⟩

/-- C6 amended: the returned schedule uses 1-based indexing: every returned
triple (round, a, b) has round in [1, M] and participants 1 ≤ a < b ≤ n; in
particular for n = 2 the result is T = 0 with schedule [(1, 1, 2)]. -/
theorem schedule_indexing_one_based (n : Nat) (solve : Nat → SolveResult) (T : Nat)
    (sched : List (Nat × Nat × Nat))
    (hret : schedule_round_robin n solve = some (T, sched)) :
    ∀ t ∈ sched, 1 ≤ t.1 ∧ t.1 ≤ M n ∧ 1 ≤ t.2.1 ∧ t.2.1 < t.2.2 ∧ t.2.2 ≤ n := by
  obtain ⟨h1, h2, h3, h4⟩ := srr_eq_some hret
  subst h3
  intro t ht
  have hperm := extractSchedule_perm n (solve T).xval
  obtain ⟨p, hp, r, hr, hx, rfl⟩ := mem_extractRaw (hperm.mem_iff.mp ht)
  have hpp := mem_pairs.mp hp
  dsimp only
  omega

/-- Witness for C6's amended statement: the n = 2 run. -/
theorem schedule_indexing_one_based_witness :
    schedule_round_robin 2 oracle0 = some (0, [(1, 1, 2)]) ∧
      (∀ t ∈ [((1 : Nat), (1 : Nat), (2 : Nat))],
        1 ≤ t.1 ∧ t.1 ≤ M 2 ∧ 1 ≤ t.2.1 ∧ t.2.1 < t.2.2 ∧ t.2.2 ≤ 2) :=
  ⟨by decide, schedule_indexing_one_based 2 oracle0 0 [(1, 1, 2)] (by decide)⟩

/-- C7: a satisfying assignment links x and y: for every participant p and
round r, the count of matches containing p that are scheduled at r equals
y (p, r) read as 0 or 1; hence y (p, r) is true iff p plays some match in
round r. -/
theorem linkage_holds (n T : Nat) (x : XAssign) (y : YAssign)
    (h : modelSat n T x y = true) :
    ∀ p, p < n → ∀ r, r < M n →
      (pairs n).countP (fun q => (q.1 == p || q.2 == p) && x (q.1, q.2, r))
          = (if y (p, r) then 1 else 0) ∧
        (y (p, r) = true ↔
          ∃ q ∈ pairs n, (q.1 = p ∨ q.2 = p) ∧ x (q.1, q.2, r) = true) := by
  intro p hp r hr
  have hcnt := linkage_count (modelSat_parts h).2.2.1 hp hr
  refine ⟨hcnt, ?_, ?_⟩
  · intro hy
    rw [hy] at hcnt
    simp only [if_pos] at hcnt
    have hpos : 0 < (pairs n).countP
        (fun q => (q.1 == p || q.2 == p) && x (q.1, q.2, r)) := by omega
    obtain ⟨q, hq, hq2⟩ := List.countP_pos_iff.mp hpos
    rw [Bool.and_eq_true, Bool.or_eq_true, beq_iff_eq, beq_iff_eq] at hq2
    exact ⟨q, hq, hq2.1, hq2.2⟩
  · rintro ⟨q, hq, hqp, hx⟩
    cases hyy : y (p, r) with
    | true => rfl
    | false =>
      rw [hyy] at hcnt
      simp only [Bool.false_eq_true, if_neg, if_false] at hcnt
      have hpos : 0 < (pairs n).countP
          (fun q => (q.1 == p || q.2 == p) && x (q.1, q.2, r)) :=
        List.countP_pos_iff.mpr ⟨q, hq, by
          rw [Bool.and_eq_true, Bool.or_eq_true, beq_iff_eq, beq_iff_eq]
          exact ⟨hqp, hx⟩⟩
      omega

/-- Witness for C7: n = 3, T = 1 with the concrete assignment. -/
theorem linkage_holds_witness :
    modelSat 3 1 xw3 yw3 = true ∧
      (∀ p, p < 3 → ∀ r, r < M 3 →
        (pairs 3).countP (fun q => (q.1 == p || q.2 == p) && xw3 (q.1, q.2, r))
            = (if yw3 (p, r) then 1 else 0) ∧
          (yw3 (p, r) = true ↔
            ∃ q ∈ pairs 3, (q.1 = p ∨ q.2 = p) ∧ xw3 (q.1, q.2, r) = true)) :=
  ⟨by decide, linkage_holds 3 1 xw3 yw3 (by decide)⟩

/-- C9: every returned schedule is sorted in ascending lexicographic order on
its (round, a, b) triples — its rounds are thus non-decreasing — and with a
solver sound at the returned bound the rounds are strictly increasing. -/
theorem schedule_sorted (n : Nat) (solve : Nat → SolveResult) (T : Nat)
    (sched : List (Nat × Nat × Nat))
    (hret : schedule_round_robin n solve = some (T, sched))
    (hsound : satStatus (solve T).status = true →
      modelSat n T (solve T).xval (solve T).yval = true) :
    List.Pairwise (fun a b => tripLe a b = true) sched ∧
      List.Pairwise (fun a b => a.1 ≤ b.1) sched ∧
      List.Pairwise (fun a b => a.1 < b.1) sched := by
  obtain ⟨h1, h2, h3, h4⟩ := srr_eq_some hret
  obtain ⟨hm, hre, hlink, hgap⟩ := modelSat_parts (hsound h2)
  subst h3
  have hperm := extractSchedule_perm n (solve T).xval
  have hs := sortTriples_pairwise (extractRaw n (solve T).xval)
  have hnd : (extractSchedule n (solve T).xval).Nodup :=
    hperm.nodup_iff.mpr (extractRaw_nodup n _)
  refine ⟨hs, hs.imp (fun {a b} hab => by rw [tripLe_iff] at hab; omega), ?_⟩
  refine (hs.and hnd).imp_of_mem (fun {a b} ha hb hab => ?_)
  obtain ⟨hab, hne⟩ := hab
  rw [tripLe_iff] at hab
  rcases Nat.lt_or_ge a.1 b.1 with hlt | hge
  · exact hlt
  · exfalso
    have haraw := hperm.mem_iff.mp ha
    have hbraw := hperm.mem_iff.mp hb
    obtain ⟨pa, hpa, ra, hra, hxa, hta⟩ := mem_extractRaw haraw
    obtain ⟨pb, hpb, rb, hrb, hxb, htb⟩ := mem_extractRaw hbraw
    have heq1 : a.1 = b.1 := by omega
    have hfa : (fun t : Nat × Nat × Nat => t.1 == ra + 1) a = true := by
      rw [hta]
      simp
    have hfb : (fun t : Nat × Nat × Nat => t.1 == ra + 1) b = true := by
      have : rb = ra := by
        rw [hta, htb] at heq1
        dsimp only at heq1
        omega
      rw [htb, this]
      simp
    have h2le := two_le_countP_of_mem (p := fun t : Nat × Nat × Nat => t.1 == ra + 1)
      hne haraw hbraw hfa hfb
    rw [extractRaw_countP_round hre hra] at h2le
    omega

/-- Witness for C9: the n = 2 run with the sound constant-FEASIBLE oracle. -/
theorem schedule_sorted_witness :
    List.Pairwise (fun a b : Nat × Nat × Nat => tripLe a b = true)
        [((1 : Nat), (1 : Nat), (2 : Nat))] ∧
      List.Pairwise (fun a b : Nat × Nat × Nat => a.1 ≤ b.1)
        [((1 : Nat), (1 : Nat), (2 : Nat))] ∧
      List.Pairwise (fun a b : Nat × Nat × Nat => a.1 < b.1)
        [((1 : Nat), (1 : Nat), (2 : Nat))] :=
  schedule_sorted 2 oracle0 0 [(1, 1, 2)] (by decide) (fun _ => by decide)
